import Mathlib

/-!
# RebuildRadar — verification of the rebuild-impact analyzer core

A shallow embedding of the C++ rebuild-impact analyzer: the `#include`
reverse-dependency graph (`src/analysis/dependencyGraph.ts`), the impact
estimator (`src/analysis/impactEstimator.ts`), the module resolver, and the
analysis-run guard (`src/commands/analyzeCommits.ts`).

Conventions of the embedding:
* JavaScript `Set<string>` is modelled as a `List String` kept duplicate-free
  by `setAdd` (insertion order preserved, as in V8).
* JavaScript `Map<K, V>` is modelled as an association list `List (K × V)`
  with unique keys; `mapGet` / `mapSet` mirror `Map.get` / `Map.set`
  (`set` replaces in place, inserting new keys at the end).
* Node's filesystem is a parameter: `fsExists : String → Bool` stands for
  `fs.existsSync`.
* JavaScript numbers are modelled exactly: integer counts as `Nat`,
  fractional arithmetic as `ℚ` (exact rationals); `Math.round x` on
  nonnegative values is `⌊x + 1/2⌋`, which is Mathlib's `round`.
-/

namespace RebuildRadar

/-- `norm` from `DependencyGraph`: replace every backslash by a forward
slash (`p.replace(/\\/g, '/')`). Written over the character list so that it
reduces inside the kernel. -/
def norm (p : String) : String :=
  String.mk (p.toList.map fun c => if c = '\\' then '/' else c)

/-- JavaScript `toLowerCase()` for the ASCII paths handled here, written
over the character list so that it reduces inside the kernel. -/
def toLowerStr (s : String) : String :=
  String.mk (s.toList.map Char.toLower)

/-- Node `path.basename` on POSIX for slash-separated paths without trailing
separators: the substring after the last `/`. -/
def basenamePosix (p : String) : String :=
  String.mk ((p.toList.reverse.takeWhile fun c => c ≠ '/').reverse)

/-- Node `path.extname`: the suffix of the basename starting at its last dot,
empty when the basename has no dot or only a leading dot. -/
def extname (p : String) : String :=
  let b := basenamePosix p
  let r := b.toList.reverse
  let tail := r.takeWhile (fun c => c ≠ '.')
  match r.dropWhile (fun c => c ≠ '.') with
  | [] => ""
  | _ :: rest => if rest = [] then "" else String.mk ('.' :: tail.reverse)

/-- The `HEADER_EXTENSIONS` set of `dependencyGraph.ts`. -/
def HEADER_EXTENSIONS : List String := [".h", ".hpp", ".hxx", ".hh", ".inl", ".ipp"]

/-- The `CPP_EXTENSIONS` set of `dependencyGraph.ts`. -/
def CPP_EXTENSIONS : List String :=
  [".cpp", ".h", ".hpp", ".cc", ".cxx", ".hxx", ".c", ".hh", ".inl", ".ipp"]

/-- `DependencyGraph.isHeader`: extension (lower-cased) is a header
extension. -/
def isHeader (filePath : String) : Bool :=
  HEADER_EXTENSIONS.contains (toLowerStr (extname filePath))

/-- `Map.get`: the value stored at the first (unique) matching key. -/
def mapGet {α : Type} : List (String × α) → String → Option α
  | [], _ => none
  | e :: rest, k => if e.1 = k then some e.2 else mapGet rest k

/-- `Map.set`: replace the value at an existing key in place, otherwise
append the new binding. -/
def mapSet {α : Type} : List (String × α) → String → α → List (String × α)
  | [], k, v => [(k, v)]
  | e :: rest, k, v => if e.1 = k then (k, v) :: rest else e :: mapSet rest k v

/-- `Set.add`: append iff the element is not already present. -/
def setAdd (s : List String) (x : String) : List String :=
  if x ∈ s then s else s ++ [x]

/-- The `fileIndex` update pattern: create the bucket on first use and push
at the end (`if (!m.has(k)) m.set(k, []); m.get(k).push(v)`). -/
def multiMapPush (m : List (String × List String)) (k v : String) :
    List (String × List String) :=
  match mapGet m k with
  | none => m ++ [(k, [v])]
  | some l => mapSet m k (l ++ [v])

/-- The `reverseDeps` update pattern: create the set on first use and add
(`if (!rd.has(inc)) rd.set(inc, new Set()); rd.get(inc).add(f)`). -/
def revAdd (rd : List (String × List String)) (inc f : String) :
    List (String × List String) :=
  match mapGet rd inc with
  | none => rd ++ [(inc, [f])]
  | some s => mapSet rd inc (setAdd s f)

/-- State of `DependencyGraph` (dependencyGraph.ts). `reverseDeps` maps an
included path to the set of files that `#include` it; `projectScope = none`
models the `null` scope. -/
structure DependencyGraph where
  reverseDeps : List (String × List String)
  allFiles : List String
  fileIndex : List (String × List String)
  rootPath : String
  built : Bool
  projectScope : Option (List String)
  fileMtimes : List (String × Nat)
  fileIncludes : List (String × List String)

/-- `new DependencyGraph(rootPath)`: everything empty, no scope, not built. -/
def freshGraph (rootPath : String) : DependencyGraph :=
  { reverseDeps := [], allFiles := [], fileIndex := [], rootPath,
    built := false, projectScope := none, fileMtimes := [], fileIncludes := [] }

/-- `DependencyGraph.totalFiles`: `projectScope.size` when a scope object is
set (a JavaScript `Set` is truthy even when empty), else `allFiles.size`. -/
def totalFiles (g : DependencyGraph) : Nat :=
  match g.projectScope with
  | some scope => scope.length
  | none => g.allFiles.length

/-- `DependencyGraph.getDependentCount`:
`reverseDeps.get(norm(p))?.size ?? 0`. -/
def getDependentCount (g : DependencyGraph) (filePath : String) : Nat :=
  match mapGet g.reverseDeps (norm filePath) with
  | some s => s.length
  | none => 0

/-- First loop of `getAffectedFiles`: normalize each changed file, add it to
`affected`, and push it on the queue when it is a header. -/
def initLoop : List String → List String → List String → List String × List String
  | [], aff, queue => (aff, queue)
  | file :: rest, aff, queue =>
    let n := norm file
    initLoop rest (setAdd aff n) (if isHeader n then queue ++ [n] else queue)

/-- Inner loop of the BFS: for every direct reverse-dependent not yet in
`affected`, add it, and enqueue it when it is a header. -/
def addDeps : List String → List String → List String → List String × List String
  | [], aff, queue => (aff, queue)
  | dep :: rest, aff, queue =>
    if dep ∈ aff then addDeps rest aff queue
    else addDeps rest (aff ++ [dep]) (if isHeader dep then queue ++ [dep] else queue)

/-- The BFS of `getAffectedFiles`, with explicit fuel counting dequeues.
`none` means the fuel ran out (shown below never to happen at
`bfsFuel`). -/
def bfsAux (rd : List (String × List String)) :
    Nat → List String → List String → Option (List String)
  | _, [], aff => some aff
  | 0, _ :: _, _ => none
  | fuel + 1, current :: rest, aff =>
    match mapGet rd current with
    | none => bfsAux rd fuel rest aff
    | some deps =>
      let p := addDeps deps aff rest
      bfsAux rd fuel p.2 p.1

/-- All entries of all reverse-dependency sets, concatenated. -/
def allDeps (rd : List (String × List String)) : List String :=
  (rd.map fun e => e.2).flatten

/-- Fuel that suffices for the BFS: every dequeue beyond the initial queue
corresponds to a fresh element drawn from some dependent set. -/
def bfsFuel (rd : List (String × List String)) (queue : List String) : Nat :=
  queue.length + (allDeps rd).length

/-- `DependencyGraph.getAffectedFiles`: seed with the normalized changed
files, BFS through reverse dependencies (only headers propagate), and filter
to the project scope at return time when one is set. -/
def getAffectedFiles (g : DependencyGraph) (changedFiles : List String) : List String :=
  let ia := initLoop changedFiles [] []
  let result := (bfsAux g.reverseDeps (bfsFuel g.reverseDeps ia.2) ia.2 ia.1).getD ia.1
  match g.projectScope with
  | some scope => result.filter fun f => decide (f ∈ scope)
  | none => result

/-- One persisted file record of the graph cache (`CachedFileEntry`):
last-parse mtime and the resolved includes, in order. -/
structure CachedFileEntry where
  mtime : Nat
  includes : List String

/-- The persisted graph snapshot (`GraphCache`), as constructed by
`DependencyGraph.toCache`: root path, build timestamp, and one entry per
discovered file (unique keys, insertion order). -/
structure GraphCache where
  rootPath : String
  builtAt : String
  files : List (String × CachedFileEntry)

/-- `DependencyGraph.toCache`: one cache entry per file of `allFiles`, with
`mtime` and `includes` defaulted (`?? 0`, `?? []`) when absent. `builtAt` is
the wall-clock timestamp, taken here as a parameter. -/
def toCache (g : DependencyGraph) (builtAt : String) : GraphCache :=
  { rootPath := g.rootPath, builtAt,
    files := g.allFiles.map fun relPath =>
      (relPath,
        { mtime := (mapGet g.fileMtimes relPath).getD 0,
          includes := (mapGet g.fileIncludes relPath).getD [] }) }

/-- Body of the `loadCache` loop for one cache entry: register the file in
`allFiles`, `fileMtimes`, `fileIncludes` and the filename index, then rebuild
its reverse-dependency edges from the cached includes. -/
def loadCacheEntry (g : DependencyGraph) (relPath : String) (entry : CachedFileEntry) :
    DependencyGraph :=
  { g with
    allFiles := setAdd g.allFiles relPath,
    fileMtimes := mapSet g.fileMtimes relPath entry.mtime,
    fileIncludes := mapSet g.fileIncludes relPath entry.includes,
    fileIndex := multiMapPush g.fileIndex (toLowerStr (basenamePosix relPath)) relPath,
    reverseDeps := entry.includes.foldl (fun rd inc => revAdd rd inc relPath) g.reverseDeps }

/-- `DependencyGraph.loadCache`: clear every map, replay each cached entry,
and mark the graph built. -/
def loadCache (g : DependencyGraph) (cache : GraphCache) : DependencyGraph :=
  let g0 := { g with reverseDeps := [], allFiles := [], fileIndex := [],
                     fileMtimes := [], fileIncludes := [] }
  let g1 := cache.files.foldl (fun acc e => loadCacheEntry acc e.1 e.2) g0
  { g1 with built := true }

/-- Node `path.join` for the slash-separated, dot-segment-free paths the
graph works with. -/
def pjoin (a b : String) : String := a ++ "/" ++ b

/-- Node `path.relative root p` for the case the graph relies on: `p` lies
under `root`, so the result is `p` with the `root/` prefix removed. -/
def prelative (root p : String) : String := p.drop (root.length + 1)

/-- `DependencyGraph.resolveInclude`, translated from the source.
`fsExists` stands for `fs.existsSync`; `fileIndex` is the lowercased-basename
index. The three steps: (1) relative to the including file's directory,
(2) relative to the workspace root, (3) fuzzy match by basename — first
candidate whose path ends with the normalized include string, else the sole
candidate when there is exactly one. -/
def resolveInclude (fsExists : String → Bool) (fileIndex : List (String × List String))
    (rootPath fromDir includePath : String) : Option String :=
  let relToFile := pjoin fromDir includePath
  if fsExists relToFile then some (norm (prelative rootPath relToFile))
  else
    let relToRoot := pjoin rootPath includePath
    if fsExists relToRoot then some (norm (prelative rootPath relToRoot))
    else
      let fileName := toLowerStr (basenamePosix includePath)
      match mapGet fileIndex fileName with
      | some candidates =>
        if candidates.length > 0 then
          let normalizedInclude := norm includePath
          match candidates.find? (fun c => c.endsWith normalizedInclude) with
          | some c => some c
          | none => if candidates.length = 1 then candidates.head? else none
        else none
      | none => none

/-- The include-resolution cascade as the specification words it: run the
three resolution attempts in order and take the first success. -/
def resolveIncludeSpec (fsExists : String → Bool) (fileIndex : List (String × List String))
    (rootPath fromDir includePath : String) : Option String :=
  let attempt1 :=
    if fsExists (pjoin fromDir includePath)
    then some (norm (prelative rootPath (pjoin fromDir includePath))) else none
  let attempt2 :=
    if fsExists (pjoin rootPath includePath)
    then some (norm (prelative rootPath (pjoin rootPath includePath))) else none
  let attempt3 :=
    let candidates := (mapGet fileIndex (toLowerStr (basenamePosix includePath))).getD []
    match candidates.find? (fun c => c.endsWith (norm includePath)) with
    | some c => some c
    | none => if candidates.length = 1 then candidates.head? else none
  (attempt1 <|> attempt2) <|> attempt3

/-- `ImpactEstimator.calculatePercentage` over exact rationals:
`Math.round((affected / total) * 1000) / 10`, and `0` when the denominator is
zero. On the nonnegative inputs used here, `Math.round` is `⌊x + 1/2⌋`,
Mathlib's `round`. -/
def calculatePercentage (affectedCount totalCount : ℚ) : ℚ :=
  if totalCount = 0 then 0
  else round (affectedCount / totalCount * 1000) / 10

/-- `ModuleDescriptor` (models/moduleDescriptor.ts): the module type tag is
kept as a string. -/
structure ModuleDescriptor where
  name : String
  path : String
  type : String
  files : List String

/-- `ModuleImpact` (models/impactReport.ts). -/
structure ModuleImpact where
  moduleName : String
  modulePath : String
  moduleType : String
  totalFiles : Nat
  affectedFiles : Nat
  affectedFileList : List String

/-- State of `ModuleResolver`: detected modules and the reverse
file-to-module index. -/
structure ModuleResolver where
  modules : List (String × ModuleDescriptor)
  fileToModule : List (String × String)

/-- `ModuleResolver.resolveFileModule`:
`fileToModule.get(norm(path)) ?? null`. -/
def resolveFileModule (m : ModuleResolver) (filePath : String) : Option String :=
  mapGet m.fileToModule (norm filePath)

/-- `ModuleResolver.buildReverseIndex`: iterate the modules, inserting each
file once; on duplicates the first-registered module wins. -/
def buildReverseIndex (modules : List (String × ModuleDescriptor)) :
    List (String × String) :=
  modules.foldl
    (fun idx e =>
      e.2.files.foldl
        (fun idx f => match mapGet idx f with
          | some _ => idx
          | none => mapSet idx f e.1)
        idx)
    []

/-- The bucketing loop of `groupByModule`. The source guard is
`if (!mod) { continue; }`, and `!mod` is true in JavaScript for both `null`
and the empty string, so a file owned by a module named `""` (reachable via
a file literally named `.Build.cs`) is skipped exactly like an unowned
file. -/
def bucketLoop (m : ModuleResolver) : List String → List (String × List String) →
    List (String × List String)
  | [], buckets => buckets
  | f :: rest, buckets =>
    match resolveFileModule m f with
    | none => bucketLoop m rest buckets
    | some name =>
      if name = "" then bucketLoop m rest buckets
      else bucketLoop m rest (multiMapPush buckets name f)

/-- The impact-building loop of `groupByModule`: a bucket whose module name
has no descriptor is dropped; otherwise an impact record is emitted. -/
def impactLoop (m : ModuleResolver) : List (String × List String) →
    List ModuleImpact → List ModuleImpact
  | [], acc => acc
  | (name, files) :: rest, acc =>
    match mapGet m.modules name with
    | none => impactLoop m rest acc
    | some desc =>
      impactLoop m rest (acc ++
        [{ moduleName := name, modulePath := desc.path, moduleType := desc.type,
           totalFiles := desc.files.length, affectedFiles := files.length,
           affectedFileList := files }])

/-- Stable insertion for the descending sort
`impacts.sort((a, b) => b.affectedFiles - a.affectedFiles)` (ES2019
`Array.sort` is stable). Under the `foldr` below the inserted element comes
earlier in the original list than everything already sorted, so it is placed
before the first element whose key is less than or equal to its own: ties
keep their original relative order. -/
def insertDesc (x : ModuleImpact) : List ModuleImpact → List ModuleImpact
  | [] => [x]
  | y :: ys =>
    if y.affectedFiles ≤ x.affectedFiles then x :: y :: ys else y :: insertDesc x ys

/-- Stable sort by `affectedFiles`, most-affected first. -/
def sortDesc (l : List ModuleImpact) : List ModuleImpact :=
  l.foldr insertDesc []

/-- `ModuleResolver.groupByModule`: empty when no modules are known;
otherwise bucket the affected files by owning module, build one impact per
bucket, and sort most-affected first. -/
def groupByModule (m : ModuleResolver) (affectedFiles : List String) :
    List ModuleImpact :=
  if m.modules.length = 0 then []
  else sortDesc (impactLoop m (bucketLoop m affectedFiles []) [])

/-- Sum of `affectedFiles` over a list of module impacts. -/
def sumAffected (l : List ModuleImpact) : Nat :=
  (l.map fun i => i.affectedFiles).sum

/-- Outcome of one `runAnalysis` call (commands/analyzeCommits.ts):
the run was skipped because one was already in progress, completed normally,
or ended with the inner analysis throwing. -/
inductive RunOutcome (ε : Type) where
  | skipped : RunOutcome ε
  | completed : RunOutcome ε
  | failed : ε → RunOutcome ε
deriving DecidableEq

/-- `runAnalysis`: if the process-wide `analysisRunning` flag is set, return
immediately; otherwise set it, run the inner analysis (modelled as a state
transformer that may also throw), and clear the flag in a `finally` whether
the inner analysis returned or threw. Returns (flag, state, outcome). -/
def runAnalysis {σ ε : Type} (inner : σ → σ × Option ε)
    (analysisRunning : Bool) (s : σ) : Bool × σ × RunOutcome ε :=
  if analysisRunning then (analysisRunning, s, RunOutcome.skipped)
  else
    let r := inner s
    match r.2 with
    | none => (false, r.1, RunOutcome.completed)
    | some e => (false, r.1, RunOutcome.failed e)

/-- The reverse-dependents recorded for a path (`reverseDeps.get(y)`,
defaulting to the empty set). -/
def depsOf (rd : List (String × List String)) (y : String) : List String :=
  (mapGet rd y).getD []

/-- Reverse-dependency reachability as the BFS explores it: starting from a
changed file, follow reverse-dependency edges, expanding only header
nodes. -/
inductive HeaderReach (rd : List (String × List String)) : String → String → Prop where
  | refl (x : String) : HeaderReach rd x x
  | step {x y z : String} : HeaderReach rd x y → isHeader y = true →
      z ∈ depsOf rd y → HeaderReach rd x z

/-- Termination measure of the BFS: dependent-set entries not yet in the
result set. Every enqueue consumes at least one of them. -/
def slack (rd : List (String × List String)) (aff : List String) : Nat :=
  (allDeps rd).countP fun x => decide (x ∉ aff)

/-- State invariant that `build` maintains and that JavaScript `Map`/`Set`
semantics guarantee: duplicate-free file set and dependent sets, and
reverse-dependency edges exactly mirroring the per-file resolved includes
(stale edges of removed or re-parsed files are purged by `build`). -/
structure WellFormed (g : DependencyGraph) : Prop where
  allFiles_nodup : g.allFiles.Nodup
  deps_nodup : ∀ e ∈ g.reverseDeps, e.2.Nodup
  rev_iff : ∀ inc f, f ∈ depsOf g.reverseDeps inc ↔
    f ∈ g.allFiles ∧ inc ∈ (mapGet g.fileIncludes f).getD []

/-- Total size of all buckets produced by the grouping loop. -/
def bucketSum (buckets : List (String × List String)) : Nat :=
  (buckets.map fun e => e.2.length).sum

/-- Example workspace for the transitive-propagation claim: `a.cpp` includes
`b.h`, `b.h` includes `c.h`. -/
def exGraphChain : DependencyGraph :=
  { freshGraph "ws" with reverseDeps := [("c.h", ["b.h"]), ("b.h", ["a.cpp"])] }

/-- Example workspace for the source-isolation claim: `f.cpp` has a reverse
dependent `g.cpp`. -/
def exGraphCpp : DependencyGraph :=
  { freshGraph "ws" with reverseDeps := [("f.cpp", ["g.cpp"])] }

/-- Example workspace for the scope-filtering claim: header `h.h` has
dependents inside and outside the configured scope. -/
def exGraphScoped : DependencyGraph :=
  { freshGraph "ws" with
    reverseDeps := [("h.h", ["a.cpp", "b.cpp"])],
    projectScope := some ["a.cpp", "h.h"] }

/-- Example graph with a configured-but-empty project scope and one
discovered file. -/
def exGraphEmptyScope : DependencyGraph :=
  { freshGraph "ws" with allFiles := ["a.cpp"], projectScope := some [] }

/-- Example built graph for the cache round-trip claim: `a.cpp` includes
`b.h`. -/
def exGraphCache : DependencyGraph :=
  { freshGraph "ws" with
    allFiles := ["a.cpp", "b.h"],
    fileIndex := [("a.cpp", ["a.cpp"]), ("b.h", ["b.h"])],
    fileMtimes := [("a.cpp", 5), ("b.h", 7)],
    fileIncludes := [("a.cpp", ["b.h"])],
    reverseDeps := [("b.h", ["a.cpp"])] }

/-- Example module resolver: one directory module `M` owning `a.cpp` and
`b.h`. -/
def exResolver : ModuleResolver :=
  { modules := [("M", { name := "M", path := "Source/M", type := "directory",
                        files := ["a.cpp", "b.h"] })],
    fileToModule := [("a.cpp", "M"), ("b.h", "M")] }

/-- Resolver state produced by Build.cs detection on a workspace containing a
file literally named `.Build.cs`: `basename('.Build.cs').replace('.Build.cs',
'')` yields the empty string as module name, and the reverse index maps the
module's files to `""`. -/
def exResolverEmptyName : ModuleResolver :=
  { modules := [("", { name := "", path := "M", type := "unreal",
                       files := ["x.cpp"] })],
    fileToModule := [("x.cpp", "")] }

/-! ## Basic lemmas about the `Map`/`Set` model -/

theorem mem_setAdd {s : List String} {x y : String} :
    x ∈ setAdd s y ↔ x ∈ s ∨ x = y := by
  unfold setAdd
  split
  · rename_i hy
    constructor
    · exact Or.inl
    · rintro (h | rfl)
      · exact h
      · exact hy
  · simp

theorem setAdd_nodup {s : List String} {y : String} (h : s.Nodup) :
    (setAdd s y).Nodup := by
  unfold setAdd
  split
  · exact h
  · rename_i hy
    refine List.Nodup.append h (List.nodup_singleton y) ?_
    intro a ha hb
    rw [List.mem_singleton] at hb
    exact hy (hb ▸ ha)

theorem mapGet_mapSet {α : Type} (m : List (String × α)) (k k' : String) (v : α) :
    mapGet (mapSet m k v) k' = if k = k' then some v else mapGet m k' := by
  induction m with
  | nil => simp [mapSet, mapGet]
  | cons e rest ih =>
    by_cases h1 : e.1 = k
    · subst h1
      by_cases h2 : e.1 = k' <;> simp [mapSet, mapGet, h2]
    · by_cases h2 : k = k'
      · subst h2
        simp [mapSet, mapGet, h1, ih]
      · simp [mapSet, mapGet, h1, ih, h2]

theorem mem_mapSet {α : Type} {m : List (String × α)} {k : String} {v : α} {e : String × α}
    (h : e ∈ mapSet m k v) : e = (k, v) ∨ e ∈ m := by
  induction m with
  | nil => simpa [mapSet] using h
  | cons e' rest ih =>
    by_cases h1 : e'.1 = k
    · simp only [mapSet, if_pos h1, List.mem_cons] at h
      rcases h with h | h
      · exact Or.inl h
      · exact Or.inr (List.mem_cons_of_mem _ h)
    · simp only [mapSet, if_neg h1, List.mem_cons] at h
      rcases h with h | h
      · exact Or.inr (by simp [h])
      · rcases ih h with h' | h'
        · exact Or.inl h'
        · exact Or.inr (List.mem_cons_of_mem _ h')

theorem mapGet_append_left {α : Type} {m : List (String × α)} {k : String} {v : α}
    (h : mapGet m k = some v) (m2 : List (String × α)) :
    mapGet (m ++ m2) k = some v := by
  induction m with
  | nil => simp [mapGet] at h
  | cons e rest ih =>
    by_cases h1 : e.1 = k
    · simpa [mapGet, h1] using by simpa [mapGet, h1] using h
    · rw [List.cons_append]
      simp only [mapGet, if_neg h1] at h ⊢
      exact ih h

theorem mapGet_append_right {α : Type} {m : List (String × α)} {k : String}
    (h : mapGet m k = none) (m2 : List (String × α)) :
    mapGet (m ++ m2) k = mapGet m2 k := by
  induction m with
  | nil => simp
  | cons e rest ih =>
    by_cases h1 : e.1 = k
    · simp [mapGet, h1] at h
    · simp only [mapGet, if_neg h1] at h
      rw [List.cons_append]
      simp only [mapGet, if_neg h1]
      exact ih h

theorem mapGet_eq_some_mem {α : Type} {m : List (String × α)} {k : String} {v : α}
    (h : mapGet m k = some v) : (k, v) ∈ m := by
  induction m with
  | nil => simp [mapGet] at h
  | cons e rest ih =>
    by_cases h1 : e.1 = k
    · simp only [mapGet, if_pos h1, Option.some.injEq] at h
      have he : (k, v) = e := by
        cases e
        simp_all
      rw [he]
      exact List.mem_cons_self _ _
    · simp only [mapGet, if_neg h1] at h
      exact List.mem_cons_of_mem _ (ih h)

theorem mem_allDeps_of_depsOf {rd : List (String × List String)} {y d : String}
    (h : d ∈ depsOf rd y) : d ∈ allDeps rd := by
  unfold depsOf at h
  cases hm : mapGet rd y with
  | none => rw [hm] at h; simp at h
  | some s =>
    rw [hm] at h
    simp only [Option.getD_some] at h
    have hmem : (y, s) ∈ rd := mapGet_eq_some_mem hm
    unfold allDeps
    rw [List.mem_flatten]
    exact ⟨s, List.mem_map_of_mem (fun e => e.2) hmem, h⟩

theorem mem_revAdd {rd : List (String × List String)} {inc f inc' x : String} :
    x ∈ depsOf (revAdd rd inc f) inc' ↔ x ∈ depsOf rd inc' ∨ (inc' = inc ∧ x = f) := by
  unfold revAdd depsOf
  cases hm : mapGet rd inc with
  | none =>
    by_cases h1 : inc = inc'
    · subst h1
      rw [mapGet_append_right hm, hm]
      simp [mapGet]
    · cases hm' : mapGet rd inc' with
      | none =>
        rw [mapGet_append_right hm']
        simp [mapGet, hm', h1, Ne.symm h1]
      | some s =>
        rw [mapGet_append_left hm']
        simp [hm', Ne.symm h1]
  | some s =>
    rw [mapGet_mapSet]
    by_cases h1 : inc = inc'
    · subst h1
      rw [hm]
      simp [mem_setAdd]
    · rw [if_neg h1]
      simp [Ne.symm h1]

theorem revAdd_deps_nodup {rd : List (String × List String)} {inc f : String}
    (h : ∀ e ∈ rd, e.2.Nodup) : ∀ e ∈ revAdd rd inc f, e.2.Nodup := by
  unfold revAdd
  cases hm : mapGet rd inc with
  | none =>
    intro e he
    rcases List.mem_append.mp he with h' | h'
    · exact h e h'
    · rw [List.mem_singleton] at h'
      subst h'
      simp
  | some s =>
    intro e he
    rcases mem_mapSet he with h' | h'
    · subst h'
      exact setAdd_nodup (h _ (mapGet_eq_some_mem hm))
    · exact h e h'

/-! ## Lemmas about the BFS inner loop -/

theorem mem_addDeps_aff {x : String} :
    ∀ {deps aff queue : List String},
      x ∈ (addDeps deps aff queue).1 ↔ x ∈ aff ∨ x ∈ deps := by
  intro deps
  induction deps with
  | nil => intro aff queue; simp [addDeps]
  | cons d rest ih =>
    intro aff queue
    by_cases hd : d ∈ aff
    · simp only [addDeps, if_pos hd, ih, List.mem_cons]
      constructor
      · rintro (h | h)
        · exact Or.inl h
        · exact Or.inr (Or.inr h)
      · rintro (h | rfl | h)
        · exact Or.inl h
        · exact Or.inl hd
        · exact Or.inr h
    · simp only [addDeps, if_neg hd, ih, List.mem_append, List.mem_singleton,
        List.mem_cons]
      tauto

theorem addDeps_queue_mono {x : String} :
    ∀ {deps aff queue : List String}, x ∈ queue → x ∈ (addDeps deps aff queue).2 := by
  intro deps
  induction deps with
  | nil => intro aff queue h; exact h
  | cons d rest ih =>
    intro aff queue h
    by_cases hd : d ∈ aff
    · simp only [addDeps, if_pos hd]
      exact ih h
    · simp only [addDeps, if_neg hd]
      by_cases hh : isHeader d = true
      · rw [if_pos hh]
        exact ih (List.mem_append_left _ h)
      · rw [if_neg hh]
        exact ih h

theorem addDeps_queue_mem {x : String} :
    ∀ {deps aff queue : List String}, x ∈ (addDeps deps aff queue).2 →
      x ∈ queue ∨ (x ∈ deps ∧ isHeader x = true) := by
  intro deps
  induction deps with
  | nil => intro aff queue h; exact Or.inl h
  | cons d rest ih =>
    intro aff queue h
    by_cases hd : d ∈ aff
    · simp only [addDeps, if_pos hd] at h
      rcases ih h with h' | h'
      · exact Or.inl h'
      · exact Or.inr ⟨List.mem_cons_of_mem _ h'.1, h'.2⟩
    · simp only [addDeps, if_neg hd] at h
      by_cases hh : isHeader d = true
      · rw [if_pos hh] at h
        rcases ih h with h' | h'
        · rcases List.mem_append.mp h' with h'' | h''
          · exact Or.inl h''
          · rw [List.mem_singleton] at h''
            subst h''
            exact Or.inr ⟨List.mem_cons_self _ _, hh⟩
        · exact Or.inr ⟨List.mem_cons_of_mem _ h'.1, h'.2⟩
      · rw [if_neg hh] at h
        rcases ih h with h' | h'
        · exact Or.inl h'
        · exact Or.inr ⟨List.mem_cons_of_mem _ h'.1, h'.2⟩

theorem addDeps_new_header_mem_queue {x : String} :
    ∀ {deps aff queue : List String}, x ∈ (addDeps deps aff queue).1 →
      x ∉ aff → isHeader x = true → x ∈ (addDeps deps aff queue).2 := by
  intro deps
  induction deps with
  | nil => intro aff queue h hna _; exact absurd h hna
  | cons d rest ih =>
    intro aff queue h hna hx
    by_cases hd : d ∈ aff
    · simp only [addDeps, if_pos hd] at h ⊢
      exact ih h hna hx
    · simp only [addDeps, if_neg hd] at h ⊢
      by_cases hxd : x = d
      · subst hxd
        rw [if_pos hx]
        exact addDeps_queue_mono (List.mem_append_right _ (List.mem_singleton_self x))
      · have hna1 : x ∉ aff ++ [d] := by
          intro hmem
          rcases List.mem_append.mp hmem with h' | h'
          · exact hna h'
          · rw [List.mem_singleton] at h'
            exact hxd h'
        exact ih h hna1 hx

/-! ## Termination of the BFS -/

theorem countP_succ_le {α : Type} (l : List α) (p q : α → Bool)
    (hpq : ∀ x ∈ l, p x = true → q x = true) (d : α) (hd : d ∈ l)
    (hpd : p d = false) (hqd : q d = true) :
    l.countP p + 1 ≤ l.countP q := by
  induction l with
  | nil => cases hd
  | cons a t ih =>
    have hmono : t.countP p ≤ t.countP q :=
      List.countP_mono_left fun x hx hp => hpq x (List.mem_cons_of_mem _ hx) hp
    rcases List.mem_cons.mp hd with rfl | hd'
    · rw [List.countP_cons, List.countP_cons]
      simp only [hpd, hqd, if_true, if_false, Bool.false_eq_true]
      omega
    · have h2 := ih (fun x hx hp => hpq x (List.mem_cons_of_mem _ hx) hp) hd'
      rw [List.countP_cons, List.countP_cons]
      by_cases hpa : p a = true
      · have hqa := hpq a (List.mem_cons_self _ _) hpa
        simp only [hpa, hqa, if_true]
        omega
      · simp only [Bool.not_eq_true] at hpa
        simp only [hpa, Bool.false_eq_true, if_false]
        by_cases hqa : q a = true
        · simp only [hqa, if_true]
          omega
        · simp only [Bool.not_eq_true] at hqa
          simp only [hqa, Bool.false_eq_true, if_false]
          omega

theorem slack_le (rd : List (String × List String)) (aff : List String) :
    slack rd aff ≤ (allDeps rd).length :=
  List.countP_le_length _

theorem slack_append_lt {rd : List (String × List String)} {aff : List String}
    {d : String} (hd : d ∈ allDeps rd) (hda : d ∉ aff) :
    slack rd (aff ++ [d]) + 1 ≤ slack rd aff := by
  unfold slack
  refine countP_succ_le _ _ _ ?_ d hd ?_ ?_
  · intro x _ hp
    simp only [decide_eq_true_eq] at hp ⊢
    intro hxa
    exact hp (List.mem_append_left _ hxa)
  · simp
  · simpa using hda

theorem addDeps_measure {rd : List (String × List String)} :
    ∀ (deps aff queue : List String), (∀ d ∈ deps, d ∈ allDeps rd) →
      (addDeps deps aff queue).2.length + slack rd (addDeps deps aff queue).1 ≤
        queue.length + slack rd aff := by
  intro deps
  induction deps with
  | nil => intro aff queue _; simp [addDeps]
  | cons d rest ih =>
    intro aff queue h
    by_cases hd : d ∈ aff
    · simp only [addDeps, if_pos hd]
      exact ih aff queue fun x hx => h x (List.mem_cons_of_mem _ hx)
    · simp only [addDeps, if_neg hd]
      have hslack := slack_append_lt (h d (List.mem_cons_self _ _)) hd
      by_cases hh : isHeader d = true
      · rw [if_pos hh]
        have hrec := ih (aff ++ [d]) (queue ++ [d])
          fun x hx => h x (List.mem_cons_of_mem _ hx)
        have hlen : (queue ++ [d]).length = queue.length + 1 := by simp
        omega
      · rw [if_neg hh]
        have hrec := ih (aff ++ [d]) queue
          fun x hx => h x (List.mem_cons_of_mem _ hx)
        omega

theorem bfsAux_isSome (rd : List (String × List String)) :
    ∀ (fuel : Nat) (queue aff : List String),
      queue.length + slack rd aff ≤ fuel →
      (bfsAux rd fuel queue aff).isSome = true := by
  intro fuel
  induction fuel with
  | zero =>
    intro queue aff h
    cases queue with
    | nil => simp [bfsAux]
    | cons c rest => simp at h
  | succ fuel ih =>
    intro queue aff h
    cases queue with
    | nil => simp [bfsAux]
    | cons c rest =>
      simp only [bfsAux]
      cases hm : mapGet rd c with
      | none =>
        apply ih
        simp only [List.length_cons] at h
        omega
      | some deps =>
        apply ih
        have hdeps : ∀ d ∈ deps, d ∈ allDeps rd := by
          intro d hd
          refine @mem_allDeps_of_depsOf rd c d ?_
          unfold depsOf
          rw [hm]
          simpa using hd
        have hmeas := @addDeps_measure rd deps aff rest hdeps
        simp only [List.length_cons] at h
        omega

/-- The fuel supplied by `getAffectedFiles` always suffices: the BFS finishes
on every finite reverse-dependency map, cyclic or not. -/
theorem bfs_fuel_sufficient (rd : List (String × List String))
    (queue aff : List String) :
    (bfsAux rd (bfsFuel rd queue) queue aff).isSome = true := by
  apply bfsAux_isSome
  unfold bfsFuel
  have := slack_le rd aff
  omega

/-! ## Semantic characterization of the BFS -/

theorem bfs_closed (rd : List (String × List String)) :
    ∀ (fuel : Nat) (queue aff R : List String),
      bfsAux rd fuel queue aff = some R →
      (∀ y, y ∈ aff → isHeader y = true →
        y ∈ queue ∨ ∀ z ∈ depsOf rd y, z ∈ aff) →
      (∀ x ∈ aff, x ∈ R) ∧
        (∀ y ∈ R, isHeader y = true → ∀ z ∈ depsOf rd y, z ∈ R) := by
  intro fuel
  induction fuel with
  | zero =>
    intro queue aff R hbfs hinv
    cases queue with
    | nil =>
      simp only [bfsAux, Option.some.injEq] at hbfs
      subst hbfs
      refine ⟨fun x hx => hx, fun y hy hh z hz => ?_⟩
      rcases hinv y hy hh with h | h
      · cases h
      · exact h z hz
    | cons c rest => simp [bfsAux] at hbfs
  | succ fuel ih =>
    intro queue aff R hbfs hinv
    cases queue with
    | nil =>
      simp only [bfsAux, Option.some.injEq] at hbfs
      subst hbfs
      refine ⟨fun x hx => hx, fun y hy hh z hz => ?_⟩
      rcases hinv y hy hh with h | h
      · cases h
      · exact h z hz
    | cons c rest =>
      cases hm : mapGet rd c with
      | none =>
        simp only [bfsAux, hm] at hbfs
        apply ih rest aff R hbfs
        intro y hy hh
        rcases hinv y hy hh with hq | hcl
        · rcases List.mem_cons.mp hq with rfl | hq'
          · right
            intro z hz
            unfold depsOf at hz
            rw [hm] at hz
            simp at hz
          · left
            exact hq'
        · right
          exact hcl
      | some deps =>
        simp only [bfsAux, hm] at hbfs
        have haux := ih _ _ R hbfs ?_
        · exact ⟨fun x hx => haux.1 x (mem_addDeps_aff.mpr (Or.inl hx)), haux.2⟩
        · intro y hy hh
          by_cases hya : y ∈ aff
          · rcases hinv y hya hh with hq | hcl
            · rcases List.mem_cons.mp hq with rfl | hq'
              · right
                intro z hz
                unfold depsOf at hz
                rw [hm] at hz
                simp only [Option.getD_some] at hz
                exact mem_addDeps_aff.mpr (Or.inr hz)
              · left
                exact addDeps_queue_mono hq'
            · right
              intro z hz
              exact mem_addDeps_aff.mpr (Or.inl (hcl z hz))
          · left
            exact addDeps_new_header_mem_queue hy hya hh

theorem bfs_sound (rd : List (String × List String)) (G : String → Prop)
    (hG : ∀ y z, G y → isHeader y = true → z ∈ depsOf rd y → G z) :
    ∀ (fuel : Nat) (queue aff R : List String),
      bfsAux rd fuel queue aff = some R →
      (∀ x ∈ aff, G x) →
      (∀ q ∈ queue, isHeader q = true ∧ G q) →
      ∀ x ∈ R, G x := by
  intro fuel
  induction fuel with
  | zero =>
    intro queue aff R hbfs haff _
    cases queue with
    | nil =>
      simp only [bfsAux, Option.some.injEq] at hbfs
      subst hbfs
      exact haff
    | cons c rest => simp [bfsAux] at hbfs
  | succ fuel ih =>
    intro queue aff R hbfs haff hqueue
    cases queue with
    | nil =>
      simp only [bfsAux, Option.some.injEq] at hbfs
      subst hbfs
      exact haff
    | cons c rest =>
      cases hm : mapGet rd c with
      | none =>
        simp only [bfsAux, hm] at hbfs
        exact ih rest aff R hbfs haff
          fun q hq => hqueue q (List.mem_cons_of_mem _ hq)
      | some deps =>
        simp only [bfsAux, hm] at hbfs
        have hc := hqueue c (List.mem_cons_self _ _)
        have hdeps : ∀ z ∈ deps, G z := by
          intro z hz
          refine hG c z hc.2 hc.1 ?_
          unfold depsOf
          rw [hm]
          simpa using hz
        refine ih _ _ R hbfs ?_ ?_
        · intro x hx
          rcases mem_addDeps_aff.mp hx with h | h
          · exact haff x h
          · exact hdeps x h
        · intro q hq
          rcases addDeps_queue_mem hq with h | h
          · exact hqueue q (List.mem_cons_of_mem _ h)
          · exact ⟨h.2, hdeps q h.1⟩

theorem initLoop_queue :
    ∀ (changed aff queue : List String),
      (initLoop changed aff queue).2 =
        queue ++ (changed.map norm).filter (fun f => isHeader f) := by
  intro changed
  induction changed with
  | nil => intro aff queue; simp [initLoop]
  | cons f rest ih =>
    intro aff queue
    simp only [initLoop]
    by_cases hh : isHeader (norm f) = true
    · rw [if_pos hh, ih]
      simp [List.filter_cons, hh]
    · rw [if_neg hh, ih]
      simp [List.filter_cons, hh]

theorem initLoop_aff_mem {x : String} :
    ∀ (changed aff queue : List String),
      x ∈ (initLoop changed aff queue).1 ↔ x ∈ aff ∨ x ∈ changed.map norm := by
  intro changed
  induction changed with
  | nil => intro aff queue; simp [initLoop]
  | cons f rest ih =>
    intro aff queue
    simp only [initLoop, ih, mem_setAdd, List.map_cons, List.mem_cons]
    tauto

/-- Semantic characterization of `getAffectedFiles` without a project scope:
a path is in the result iff it is one of the normalized changed files, or
reachable from a changed header through reverse-dependency edges that expand
only headers. -/
theorem mem_getAffectedFiles_iff (g : DependencyGraph)
    (hs : g.projectScope = none) (changed : List String) (x : String) :
    x ∈ getAffectedFiles g changed ↔
      x ∈ changed.map norm ∨
        ∃ f, f ∈ changed.map norm ∧ isHeader f = true ∧
          HeaderReach g.reverseDeps f x := by
  have hterm := bfs_fuel_sufficient g.reverseDeps
    (initLoop changed [] []).2 (initLoop changed [] []).1
  obtain ⟨R, hR⟩ := Option.isSome_iff_exists.mp hterm
  have haff0 : ∀ y, y ∈ (initLoop changed [] []).1 ↔ y ∈ changed.map norm := by
    intro y
    rw [initLoop_aff_mem]
    simp
  have hqueue0 : (initLoop changed [] []).2 =
      (changed.map norm).filter (fun f => isHeader f) := by
    rw [initLoop_queue]
    simp
  have hinv0 : ∀ y, y ∈ (initLoop changed [] []).1 → isHeader y = true →
      y ∈ (initLoop changed [] []).2 ∨
        ∀ z ∈ depsOf g.reverseDeps y, z ∈ (initLoop changed [] []).1 := by
    intro y hy hh
    left
    rw [hqueue0, List.mem_filter]
    exact ⟨(haff0 y).mp hy, hh⟩
  have hclosed := bfs_closed g.reverseDeps _ _ _ _ hR hinv0
  unfold getAffectedFiles
  simp only [hs, hR, Option.getD_some]
  constructor
  · intro hx
    refine bfs_sound g.reverseDeps
      (fun t => t ∈ changed.map norm ∨
        ∃ f, f ∈ changed.map norm ∧ isHeader f = true ∧
          HeaderReach g.reverseDeps f t) ?_ _ _ _ _ hR ?_ ?_ x hx
    · intro y z hGy hy hz
      rcases hGy with h | ⟨f, hf, hfh, hr⟩
      · exact Or.inr ⟨y, h, hy, HeaderReach.step (HeaderReach.refl y) hy hz⟩
      · exact Or.inr ⟨f, hf, hfh, HeaderReach.step hr hy hz⟩
    · intro y hy
      exact Or.inl ((haff0 y).mp hy)
    · intro q hq
      rw [hqueue0, List.mem_filter] at hq
      exact ⟨hq.2, Or.inl hq.1⟩
  · rintro (hx | ⟨f, hf, hfh, hr⟩)
    · exact hclosed.1 x ((haff0 x).mpr hx)
    · induction hr with
      | refl => exact hclosed.1 f ((haff0 f).mpr hf)
      | step h1 h2 h3 ih => exact hclosed.2 _ ih h2 _ h3

/-! ## Claims about `getAffectedFiles` -/

/-- C1: Header changes propagate transitively through reverse-dependency
edges. With no project scope, every file reachable from a changed header
along reverse-dependency edges (propagation continuing through headers, as
the BFS expands exactly the header nodes) is in `getAffectedFiles`; the
claim's instance — `a.cpp` includes `b.h`, `b.h` includes `c.h`, so
`getAffectedFiles [c.h] ⊇ {c.h, b.h, a.cpp}` — is the witness below. -/
theorem header_changes_propagate (g : DependencyGraph) (changed : List String)
    (f t : String) (hs : g.projectScope = none) (hf : f ∈ changed.map norm)
    (hh : isHeader f = true) (hr : HeaderReach g.reverseDeps f t) :
    t ∈ getAffectedFiles g changed := by
  rw [mem_getAffectedFiles_iff g hs changed t]
  exact Or.inr ⟨f, hf, hh, hr⟩

/-- Witness for C1 on the claim's own workspace: changing `c.h` affects
`c.h`, `b.h` and `a.cpp`. -/
theorem header_changes_propagate_witness :
    "c.h" ∈ getAffectedFiles exGraphChain ["c.h"] ∧
    "b.h" ∈ getAffectedFiles exGraphChain ["c.h"] ∧
    "a.cpp" ∈ getAffectedFiles exGraphChain ["c.h"] := by
  refine ⟨?_, ?_, ?_⟩
  · exact header_changes_propagate _ _ "c.h" "c.h" rfl (by decide) (by decide)
      (HeaderReach.refl _)
  · exact header_changes_propagate _ _ "c.h" "b.h" rfl (by decide) (by decide)
      (HeaderReach.step (HeaderReach.refl _) (by decide) (by decide))
  · exact header_changes_propagate _ _ "c.h" "a.cpp" rfl (by decide) (by decide)
      (HeaderReach.step
        (HeaderReach.step (HeaderReach.refl _) (by decide) (by decide) :
          HeaderReach exGraphChain.reverseDeps "c.h" "b.h")
        (by decide) (by decide))

/-- C2: changes to non-header files never propagate. With no project scope
and every changed file's normalized path failing the header test, the result
set is exactly the set of normalized input paths — whether or not the
changed files have reverse dependents. -/
theorem source_changes_isolated (g : DependencyGraph) (changed : List String)
    (x : String) (hs : g.projectScope = none)
    (hnh : ∀ f ∈ changed, isHeader (norm f) = false) :
    x ∈ getAffectedFiles g changed ↔ x ∈ changed.map norm := by
  rw [mem_getAffectedFiles_iff g hs changed x]
  constructor
  · rintro (h | ⟨f, hf, hfh, _⟩)
    · exact h
    · obtain ⟨f0, hf0, rfl⟩ := List.mem_map.mp hf
      rw [hnh f0 hf0] at hfh
      cases hfh
  · exact Or.inl

/-- Witness for C2: `f.cpp` has the reverse dependent `g.cpp`, yet changing
`f.cpp` affects `f.cpp` only. -/
theorem source_changes_isolated_witness :
    ("f.cpp" ∈ getAffectedFiles exGraphCpp ["f.cpp"] ↔
      "f.cpp" ∈ ["f.cpp"].map norm) ∧
    ("g.cpp" ∈ getAffectedFiles exGraphCpp ["f.cpp"] ↔
      "g.cpp" ∈ ["f.cpp"].map norm) :=
  ⟨source_changes_isolated exGraphCpp ["f.cpp"] "f.cpp" rfl (by decide),
   source_changes_isolated exGraphCpp ["f.cpp"] "g.cpp" rfl (by decide)⟩

/-- C3: with a configured project scope the result is a subset of the scope,
and it equals the unscoped BFS result filtered by scope membership at return
time — the BFS itself is unaffected by the scope. -/
theorem project_scope_filters (g : DependencyGraph) (scope : List String)
    (changed : List String) (x : String) (hs : g.projectScope = some scope) :
    (x ∈ getAffectedFiles g changed → x ∈ scope) ∧
    (x ∈ getAffectedFiles g changed ↔
      x ∈ getAffectedFiles { g with projectScope := none } changed ∧
        x ∈ scope) := by
  have hmain : x ∈ getAffectedFiles g changed ↔
      x ∈ getAffectedFiles { g with projectScope := none } changed ∧
        x ∈ scope := by
    unfold getAffectedFiles
    simp only [hs]
    rw [List.mem_filter]
    simp
  exact ⟨fun h => (hmain.mp h).2, hmain⟩

/-- Witness for C3: `h.h` has dependents `a.cpp` (in scope) and `b.cpp`
(outside); the scoped result contains `a.cpp` exactly because the unscoped
BFS reaches it and it is in scope. -/
theorem project_scope_filters_witness :
    ("a.cpp" ∈ getAffectedFiles exGraphScoped ["h.h"] →
      "a.cpp" ∈ ["a.cpp", "h.h"]) ∧
    ("a.cpp" ∈ getAffectedFiles exGraphScoped ["h.h"] ↔
      "a.cpp" ∈ getAffectedFiles { exGraphScoped with projectScope := none }
          ["h.h"] ∧
        "a.cpp" ∈ ["a.cpp", "h.h"]) :=
  project_scope_filters exGraphScoped ["a.cpp", "h.h"] ["h.h"] "a.cpp" rfl

/-- C8: `getAffectedFiles` terminates on every finite reverse-dependency
map, including cyclic ones: the BFS it starts (on the seed queue and seed
result set built by `initLoop`, with its allotted fuel) always completes,
because elements are enqueued only when newly added to the result set. -/
theorem getAffectedFiles_terminates (g : DependencyGraph)
    (changed : List String) :
    (bfsAux g.reverseDeps (bfsFuel g.reverseDeps (initLoop changed [] []).2)
      (initLoop changed [] []).2 (initLoop changed [] []).1).isSome = true :=
  bfs_fuel_sufficient g.reverseDeps _ _

/-! ## Claims about `totalFiles` -/

/-- C4 counterexample: a graph with one discovered file and a
configured-but-empty project scope. `totalFiles` returns the scope's size 0
(a JavaScript `Set` is truthy even when empty), not the discovered file-set
size 1 that the claim demands for this case. -/
theorem totalFiles_emptyScope_counterexample :
    exGraphEmptyScope.projectScope = some [] ∧
    exGraphEmptyScope.allFiles.length = 1 ∧
    totalFiles exGraphEmptyScope ≠ exGraphEmptyScope.allFiles.length := by
  refine ⟨rfl, rfl, ?_⟩
  decide

/-- C4 as amended: `totalFiles` returns the size of the configured project
scope whenever a scope is configured — including 0 for an empty scope — and
the size of the discovered file set only when no scope is configured. -/
theorem totalFiles_spec (g : DependencyGraph) :
    totalFiles g = (g.projectScope.map List.length).getD g.allFiles.length := by
  cases h : g.projectScope <;> simp [totalFiles, h]

/-! ## Include resolution, percentage arithmetic, run guard -/

/-- C5: include resolution tries, in order, and returns the first success:
(1) the include joined to the including file's directory when it exists on
disk, (2) the include joined to the workspace root when it exists, (3) among
filename-index candidates sharing the lowercased basename, the first whose
workspace-relative path ends with the normalized include string, else the
sole candidate when exactly one exists; otherwise the include is dropped.
Stated as equality with the cascade written the way the spec words it, for
every filesystem, index and path. -/
theorem resolveInclude_first_match (fsExists : String → Bool)
    (fileIndex : List (String × List String))
    (rootPath fromDir includePath : String) :
    resolveInclude fsExists fileIndex rootPath fromDir includePath =
      resolveIncludeSpec fsExists fileIndex rootPath fromDir includePath := by
  unfold resolveInclude resolveIncludeSpec
  by_cases h1 : fsExists (pjoin fromDir includePath) = true
  · simp [h1]
  · rw [Bool.not_eq_true] at h1
    simp only [h1, Bool.false_eq_true, if_false]
    by_cases h2 : fsExists (pjoin rootPath includePath) = true
    · simp [h2]
    · rw [Bool.not_eq_true] at h2
      simp only [h2, Bool.false_eq_true, if_false, Option.none_orElse]
      cases hm : mapGet fileIndex (toLowerStr (basenamePosix includePath)) with
      | none => simp
      | some candidates =>
        cases candidates with
        | nil => simp
        | cons c cs => simp

/-- C6: `calculatePercentage a t` equals `round (a / t * 1000) / 10` with
rounding half away from zero (for the nonnegative counts used here,
`⌊x + 1/2⌋`) when `t > 0`, and `0` when `t = 0`; with the claim's examples
`(0, 100) → 0`, `(100, 100) → 100`, `(1, 3) → 33.3`, `(1, 1000) → 0.1`. -/
theorem calculatePercentage_spec :
    (∀ a t : ℕ, 0 < t →
      calculatePercentage a t = (⌊(a : ℚ) / t * 1000 + 1 / 2⌋ : ℚ) / 10) ∧
    (∀ a : ℕ, calculatePercentage a 0 = 0) ∧
    calculatePercentage 0 100 = 0 ∧
    calculatePercentage 100 100 = 100 ∧
    calculatePercentage 1 3 = 333 / 10 ∧
    calculatePercentage 1 1000 = 1 / 10 := by
  have hfloor : ∀ (q : ℚ) (z : ℤ), (z : ℚ) ≤ q ∧ q < z + 1 → ⌊q⌋ = z :=
    fun q z h => Int.floor_eq_iff.mpr h
  refine ⟨?_, ?_, ?_, ?_, ?_, ?_⟩
  · intro a t ht
    unfold calculatePercentage
    rw [if_neg (by exact_mod_cast ht.ne'), round_eq]
  · intro a
    simp [calculatePercentage]
  · unfold calculatePercentage
    rw [if_neg (by norm_num : (100 : ℚ) ≠ 0), round_eq]
    rw [hfloor ((0 : ℚ) / 100 * 1000 + 1 / 2) 0 (by norm_num)]
    norm_num
  · unfold calculatePercentage
    rw [if_neg (by norm_num : (100 : ℚ) ≠ 0), round_eq]
    rw [hfloor ((100 : ℚ) / 100 * 1000 + 1 / 2) 1000 (by norm_num)]
    norm_num
  · unfold calculatePercentage
    rw [if_neg (by norm_num : (3 : ℚ) ≠ 0), round_eq]
    rw [hfloor ((1 : ℚ) / 3 * 1000 + 1 / 2) 333 (by norm_num)]
    norm_num
  · unfold calculatePercentage
    rw [if_neg (by norm_num : (1000 : ℚ) ≠ 0), round_eq]
    rw [hfloor ((1 : ℚ) / 1000 * 1000 + 1 / 2) 1 (by norm_num)]
    norm_num

/-- Witness for C6, applying the general case at `(1, 3)`. -/
theorem calculatePercentage_spec_witness :
    calculatePercentage 1 3 = (⌊((1 : ℕ) : ℚ) / ((3 : ℕ) : ℚ) * 1000 + 1 / 2⌋ : ℚ) / 10 :=
  calculatePercentage_spec.1 1 3 (by norm_num)

/-- C10: the analysis-in-progress flag is always released. When the flag is
set, a second call returns immediately with the state untouched and no inner
run; when it is clear, the flag is `false` again afterwards whether the
inner analysis returned normally or threw, and the final state and outcome
come from the inner run. -/
theorem analysis_guard {σ ε : Type} (inner : σ → σ × Option ε) (s : σ) :
    runAnalysis inner true s = (true, s, RunOutcome.skipped) ∧
    (runAnalysis inner false s).1 = false ∧
    (runAnalysis inner false s).2.1 = (inner s).1 ∧
    (runAnalysis inner false s).2.2 =
      (match (inner s).2 with
        | none => RunOutcome.completed
        | some e => RunOutcome.failed e) := by
  refine ⟨rfl, ?_, ?_, ?_⟩ <;>
    · unfold runAnalysis
      cases h : (inner s).2 <;> simp [h]

/-! ## Module grouping -/

theorem bucketSum_mapSet {b : List (String × List String)} {k : String}
    {l : List String} (v' : List String) (h : mapGet b k = some l) :
    bucketSum (mapSet b k v') + l.length = bucketSum b + v'.length := by
  induction b with
  | nil => simp [mapGet] at h
  | cons e rest ih =>
    by_cases h1 : e.1 = k
    · simp only [mapGet, if_pos h1, Option.some.injEq] at h
      subst h
      simp only [mapSet, if_pos h1, bucketSum, List.map_cons, List.sum_cons]
      omega
    · simp only [mapGet, if_neg h1] at h
      have := ih h
      simp only [mapSet, if_neg h1, bucketSum, List.map_cons, List.sum_cons] at *
      omega

theorem bucketSum_multiMapPush (b : List (String × List String)) (k v : String) :
    bucketSum (multiMapPush b k v) = bucketSum b + 1 := by
  unfold multiMapPush
  cases hm : mapGet b k with
  | none => simp [bucketSum]
  | some l =>
    show bucketSum (mapSet b k (l ++ [v])) = bucketSum b + 1
    have := bucketSum_mapSet (l ++ [v]) hm
    simp only [List.length_append, List.length_singleton] at this
    omega

theorem mem_map_fst_multiMapPush {b : List (String × List String)}
    {k v x : String} (h : x ∈ (multiMapPush b k v).map Prod.fst) :
    x ∈ b.map Prod.fst ∨ x = k := by
  unfold multiMapPush at h
  cases hm : mapGet b k with
  | none =>
    rw [hm] at h
    simp only [List.map_append, List.mem_append] at h
    rcases h with h | h
    · exact Or.inl h
    · simp at h
      exact Or.inr h
  | some l =>
    rw [hm] at h
    obtain ⟨e, he, rfl⟩ := List.mem_map.mp h
    rcases mem_mapSet he with h' | h'
    · subst h'
      exact Or.inr rfl
    · exact Or.inl (List.mem_map_of_mem _ h')

theorem mem_multiMapPush_nonempty {b : List (String × List String)}
    {k v : String} (hb : ∀ e ∈ b, e.2 ≠ []) :
    ∀ e ∈ multiMapPush b k v, e.2 ≠ [] := by
  unfold multiMapPush
  cases hm : mapGet b k with
  | none =>
    intro e he
    rcases List.mem_append.mp he with h | h
    · exact hb e h
    · simp at h
      subst h
      simp
  | some l =>
    intro e he
    rcases mem_mapSet he with h | h
    · subst h
      simp
    · exact hb e h

theorem bucketLoop_sum (m : ModuleResolver) :
    ∀ (l : List String) (buckets : List (String × List String)),
      bucketSum (bucketLoop m l buckets) =
        bucketSum buckets +
          (l.filter fun f =>
            decide ((resolveFileModule m f).getD "" ≠ "")).length := by
  intro l
  induction l with
  | nil => intro buckets; simp [bucketLoop]
  | cons f rest ih =>
    intro buckets
    cases hr : resolveFileModule m f with
    | none =>
      simp only [bucketLoop, hr]
      rw [ih buckets]
      simp [List.filter_cons, hr]
    | some name =>
      by_cases hn : name = ""
      · subst hn
        simp only [bucketLoop, hr, eq_self_iff_true, if_true]
        rw [ih buckets]
        simp [List.filter_cons, hr]
      · simp only [bucketLoop, hr, if_neg hn]
        rw [ih, bucketSum_multiMapPush]
        simp [List.filter_cons, hr, hn]
        omega

theorem bucketLoop_keys (m : ModuleResolver) :
    ∀ (l : List String) (buckets : List (String × List String)),
      ∀ e ∈ bucketLoop m l buckets,
        e.1 ∈ buckets.map Prod.fst ∨
          ∃ f, resolveFileModule m f = some e.1 := by
  intro l
  induction l with
  | nil => intro buckets e he; exact Or.inl (List.mem_map_of_mem _ he)
  | cons f rest ih =>
    intro buckets e he
    cases hr : resolveFileModule m f with
    | none =>
      simp only [bucketLoop, hr] at he
      exact ih buckets e he
    | some name =>
      by_cases hn : name = ""
      · simp only [bucketLoop, hr, if_pos hn] at he
        exact ih buckets e he
      · simp only [bucketLoop, hr, if_neg hn] at he
        rcases ih _ e he with h | h
        · rcases mem_map_fst_multiMapPush h with h' | h'
          · exact Or.inl h'
          · exact Or.inr ⟨f, h' ▸ hr⟩
        · exact Or.inr h

theorem bucketLoop_nonempty (m : ModuleResolver) :
    ∀ (l : List String) (buckets : List (String × List String)),
      (∀ e ∈ buckets, e.2 ≠ []) →
      ∀ e ∈ bucketLoop m l buckets, e.2 ≠ [] := by
  intro l
  induction l with
  | nil => intro buckets hb e he; exact hb e he
  | cons f rest ih =>
    intro buckets hb e he
    cases hr : resolveFileModule m f with
    | none =>
      simp only [bucketLoop, hr] at he
      exact ih buckets hb e he
    | some name =>
      by_cases hn : name = ""
      · simp only [bucketLoop, hr, if_pos hn] at he
        exact ih buckets hb e he
      · simp only [bucketLoop, hr, if_neg hn] at he
        exact ih _ (mem_multiMapPush_nonempty hb) e he

theorem sumAffected_append (l1 l2 : List ModuleImpact) :
    sumAffected (l1 ++ l2) = sumAffected l1 + sumAffected l2 := by
  simp [sumAffected]

theorem impactLoop_sum (m : ModuleResolver) :
    ∀ (buckets : List (String × List String)) (acc : List ModuleImpact),
      (∀ e ∈ buckets, (mapGet m.modules e.1).isSome = true) →
      sumAffected (impactLoop m buckets acc) = sumAffected acc + bucketSum buckets := by
  intro buckets
  induction buckets with
  | nil => intro acc _; simp [impactLoop, bucketSum]
  | cons e rest ih =>
    intro acc hfound
    obtain ⟨name, files⟩ := e
    cases hm : mapGet m.modules name with
    | none =>
      have := hfound (name, files) (List.mem_cons_self _ _)
      rw [hm] at this
      simp at this
    | some desc =>
      simp only [impactLoop, hm]
      rw [ih _ fun e' he' => hfound e' (List.mem_cons_of_mem _ he'),
        sumAffected_append]
      simp [sumAffected, bucketSum]
      omega

theorem impactLoop_pos (m : ModuleResolver) :
    ∀ (buckets : List (String × List String)) (acc : List ModuleImpact),
      (∀ e ∈ buckets, e.2 ≠ []) →
      (∀ i ∈ acc, 1 ≤ i.affectedFiles) →
      ∀ i ∈ impactLoop m buckets acc, 1 ≤ i.affectedFiles := by
  intro buckets
  induction buckets with
  | nil => intro acc _ hacc i hi; exact hacc i hi
  | cons e rest ih =>
    intro acc hne hacc i hi
    obtain ⟨name, files⟩ := e
    cases hm : mapGet m.modules name with
    | none =>
      simp only [impactLoop, hm] at hi
      exact ih acc (fun e' he' => hne e' (List.mem_cons_of_mem _ he')) hacc i hi
    | some desc =>
      simp only [impactLoop, hm] at hi
      refine ih _ (fun e' he' => hne e' (List.mem_cons_of_mem _ he')) ?_ i hi
      intro j hj
      rcases List.mem_append.mp hj with h | h
      · exact hacc j h
      · simp at h
        subst h
        have hf : files ≠ [] := hne (name, files) (List.mem_cons_self _ _)
        have := List.length_pos.mpr hf
        simpa using this

theorem sumAffected_insertDesc (x : ModuleImpact) (l : List ModuleImpact) :
    sumAffected (insertDesc x l) = x.affectedFiles + sumAffected l := by
  induction l with
  | nil => simp [insertDesc, sumAffected]
  | cons y ys ih =>
    unfold insertDesc
    split
    · simp [sumAffected]
    · simp only [sumAffected, List.map_cons, List.sum_cons] at *
      omega

theorem sumAffected_sortDesc (l : List ModuleImpact) :
    sumAffected (sortDesc l) = sumAffected l := by
  induction l with
  | nil => rfl
  | cons x xs ih =>
    unfold sortDesc at *
    simp only [List.foldr_cons, sumAffected_insertDesc, ih]
    simp [sumAffected]

theorem mem_insertDesc {y x : ModuleImpact} {l : List ModuleImpact} :
    y ∈ insertDesc x l ↔ y = x ∨ y ∈ l := by
  induction l with
  | nil => simp [insertDesc]
  | cons z zs ih =>
    unfold insertDesc
    split
    · simp [List.mem_cons]
    · simp only [List.mem_cons, ih]
      tauto

theorem mem_sortDesc {y : ModuleImpact} {l : List ModuleImpact} :
    y ∈ sortDesc l ↔ y ∈ l := by
  induction l with
  | nil => simp [sortDesc]
  | cons x xs ih =>
    unfold sortDesc at *
    simp only [List.foldr_cons, mem_insertDesc, ih, List.mem_cons]

theorem pairwise_insertDesc {x : ModuleImpact} {l : List ModuleImpact}
    (h : List.Pairwise (fun a b => b.affectedFiles ≤ a.affectedFiles) l) :
    List.Pairwise (fun a b => b.affectedFiles ≤ a.affectedFiles)
      (insertDesc x l) := by
  induction l with
  | nil => simp [insertDesc]
  | cons y ys ih =>
    rw [List.pairwise_cons] at h
    unfold insertDesc
    split
    · rename_i hle
      rw [List.pairwise_cons]
      constructor
      · intro z hz
        rcases List.mem_cons.mp hz with rfl | hz'
        · exact hle
        · exact le_trans (h.1 z hz') hle
      · rw [List.pairwise_cons]
        exact h
    · rename_i hgt
      rw [List.pairwise_cons]
      constructor
      · intro z hz
        rcases mem_insertDesc.mp hz with rfl | hz'
        · omega
        · exact h.1 z hz'
      · exact ih h.2

theorem pairwise_sortDesc (l : List ModuleImpact) :
    List.Pairwise (fun a b => b.affectedFiles ≤ a.affectedFiles) (sortDesc l) := by
  induction l with
  | nil => simp [sortDesc]
  | cons x xs ih =>
    unfold sortDesc at *
    rw [List.foldr_cons]
    exact pairwise_insertDesc ih

/-- C9 as amended: for every affected-file list and every resolver state
whose reverse index points only at registered modules (as
`buildReverseIndex` guarantees), the `affected_files_count` sum over
`groupByModule`'s result equals the number of affected files that resolve
to a module with a non-empty name — the falsy empty-string module name,
reachable via a file literally named `.Build.cs`, is skipped by
`if (!mod) continue` just like `null` — hence the sum never exceeds the
total affected count; the result is sorted most-affected first, and every
entry has at least one affected file. -/
theorem groupByModule_spec (m : ModuleResolver) (aff : List String)
    (hmod : ∀ e ∈ m.fileToModule, (mapGet m.modules e.2).isSome = true) :
    sumAffected (groupByModule m aff) =
      (aff.filter fun f =>
        decide ((resolveFileModule m f).getD "" ≠ "")).length ∧
    sumAffected (groupByModule m aff) ≤ aff.length ∧
    List.Chain' (fun a b => b.affectedFiles ≤ a.affectedFiles)
      (groupByModule m aff) ∧
    (groupByModule m aff).all (fun i => decide (1 ≤ i.affectedFiles)) = true := by
  have hmod' : ∀ f n, resolveFileModule m f = some n →
      (mapGet m.modules n).isSome = true := by
    intro f n h
    exact hmod (norm f, n) (mapGet_eq_some_mem h)
  by_cases hempty : m.modules.length = 0
  · have hmods : m.modules = [] := List.length_eq_zero.mp hempty
    have hnone : ∀ f, resolveFileModule m f = none := by
      intro f
      cases hr : resolveFileModule m f with
      | none => rfl
      | some n =>
        have := hmod' f n hr
        rw [hmods] at this
        simp [mapGet] at this
    have hfilter : (aff.filter fun f =>
        decide ((resolveFileModule m f).getD "" ≠ "")) = [] := by
      apply List.filter_eq_nil_iff.mpr
      intro f _
      simp [hnone f]
    unfold groupByModule
    rw [if_pos hempty, hfilter]
    simp [sumAffected]
  · have hsum : sumAffected (groupByModule m aff) =
        (aff.filter fun f =>
          decide ((resolveFileModule m f).getD "" ≠ "")).length := by
      have hfound : ∀ e ∈ bucketLoop m aff [],
          (mapGet m.modules e.1).isSome = true := by
        intro e he
        rcases bucketLoop_keys m aff [] e he with h | h
        · simp at h
        · obtain ⟨f, hf⟩ := h
          exact hmod' f e.1 hf
      unfold groupByModule
      rw [if_neg hempty, sumAffected_sortDesc]
      rw [impactLoop_sum m _ _ hfound, bucketLoop_sum]
      simp [sumAffected, bucketSum]
    refine ⟨hsum, ?_, ?_, ?_⟩
    · rw [hsum]
      exact List.length_filter_le _ _
    · unfold groupByModule
      rw [if_neg hempty]
      exact (pairwise_sortDesc _).chain'
    · rw [List.all_eq_true]
      intro i hi
      rw [decide_eq_true_eq]
      unfold groupByModule at hi
      rw [if_neg hempty] at hi
      rw [mem_sortDesc] at hi
      refine impactLoop_pos m _ [] ?_ (by simp) i hi
      exact bucketLoop_nonempty m aff [] (by simp)

/-- Witness for C9 on a concrete resolver (`a.cpp`, `b.h` in module `M`;
`x.cpp` unowned): sum is 2, bounded by 3, sorted, all entries positive. -/
theorem groupByModule_spec_witness :
    sumAffected (groupByModule exResolver ["a.cpp", "x.cpp", "b.h"]) =
      (["a.cpp", "x.cpp", "b.h"].filter fun f =>
        decide ((resolveFileModule exResolver f).getD "" ≠ "")).length ∧
    sumAffected (groupByModule exResolver ["a.cpp", "x.cpp", "b.h"]) ≤
      ["a.cpp", "x.cpp", "b.h"].length ∧
    List.Chain' (fun a b => b.affectedFiles ≤ a.affectedFiles)
      (groupByModule exResolver ["a.cpp", "x.cpp", "b.h"]) ∧
    (groupByModule exResolver ["a.cpp", "x.cpp", "b.h"]).all
      (fun i => decide (1 ≤ i.affectedFiles)) = true :=
  groupByModule_spec exResolver ["a.cpp", "x.cpp", "b.h"] (by decide)

/-- C9 counterexample: at the reachable resolver state whose only module is
named `""` (a file literally named `.Build.cs`), with `x.cpp` owned by that
module and affected, the reverse index is exactly `buildReverseIndex` of the
modules, `x.cpp` resolves to a (non-null) module, yet `groupByModule` skips
it — `if (!mod) continue` also fires on the falsy empty string — so the sum
of `affected_files_count` is 0 while the number of affected files that
resolve to some module is 1. -/
theorem groupByModule_emptyName_counterexample :
    exResolverEmptyName.fileToModule =
      buildReverseIndex exResolverEmptyName.modules ∧
    (resolveFileModule exResolverEmptyName "x.cpp").isSome = true ∧
    sumAffected (groupByModule exResolverEmptyName ["x.cpp"]) ≠
      (["x.cpp"].filter fun f =>
        (resolveFileModule exResolverEmptyName f).isSome).length := by
  refine ⟨?_, ?_, ?_⟩ <;> decide

/-! ## Cache round trip -/

theorem loadFold_projectScope :
    ∀ (L : List (String × CachedFileEntry)) (h : DependencyGraph),
      (L.foldl (fun acc e => loadCacheEntry acc e.1 e.2) h).projectScope =
        h.projectScope := by
  intro L
  induction L with
  | nil => intro h; rfl
  | cons e rest ih =>
    intro h
    rw [List.foldl_cons, ih]
    rfl

theorem loadFold_reverseDeps :
    ∀ (L : List (String × CachedFileEntry)) (h : DependencyGraph),
      (L.foldl (fun acc e => loadCacheEntry acc e.1 e.2) h).reverseDeps =
        L.foldl
          (fun rd e => e.2.includes.foldl (fun rd' inc => revAdd rd' inc e.1) rd)
          h.reverseDeps := by
  intro L
  induction L with
  | nil => intro h; rfl
  | cons e rest ih =>
    intro h
    rw [List.foldl_cons, ih, List.foldl_cons]
    rfl

theorem loadFold_allFiles :
    ∀ (L : List (String × CachedFileEntry)) (h : DependencyGraph),
      (L.foldl (fun acc e => loadCacheEntry acc e.1 e.2) h).allFiles =
        L.foldl (fun s e => setAdd s e.1) h.allFiles := by
  intro L
  induction L with
  | nil => intro h; rfl
  | cons e rest ih =>
    intro h
    rw [List.foldl_cons, ih, List.foldl_cons]
    rfl

theorem foldl_setAdd_keys :
    ∀ (L : List (String × CachedFileEntry)) (acc : List String),
      (L.map Prod.fst).Nodup → (∀ e ∈ L, e.1 ∉ acc) →
      L.foldl (fun s e => setAdd s e.1) acc = acc ++ L.map Prod.fst := by
  intro L
  induction L with
  | nil => intro acc _ _; simp
  | cons e rest ih =>
    intro acc hnd hfresh
    rw [List.map_cons, List.nodup_cons] at hnd
    rw [List.foldl_cons]
    have hset : setAdd acc e.1 = acc ++ [e.1] := by
      unfold setAdd
      rw [if_neg (hfresh e (List.mem_cons_self _ _))]
    rw [hset, ih _ hnd.2 ?_]
    · simp
    · intro e' he' hmem
      rcases List.mem_append.mp hmem with h | h
      · exact hfresh e' (List.mem_cons_of_mem _ he') h
      · rw [List.mem_singleton] at h
        exact hnd.1 (h ▸ List.mem_map_of_mem Prod.fst he')

theorem mem_revFold :
    ∀ (incs : List String) (rd : List (String × List String)) (r inc' x : String),
      x ∈ depsOf (incs.foldl (fun rd' inc => revAdd rd' inc r) rd) inc' ↔
        x ∈ depsOf rd inc' ∨ (inc' ∈ incs ∧ x = r) := by
  intro incs
  induction incs with
  | nil => intro rd r inc' x; simp
  | cons i rest ih =>
    intro rd r inc' x
    rw [List.foldl_cons, ih, mem_revAdd]
    simp only [List.mem_cons]
    tauto

theorem mem_loadFold_rev :
    ∀ (L : List (String × CachedFileEntry)) (rd : List (String × List String))
      (inc' x : String),
      x ∈ depsOf
        (L.foldl
          (fun rd e => e.2.includes.foldl (fun rd' inc => revAdd rd' inc e.1) rd)
          rd) inc' ↔
        x ∈ depsOf rd inc' ∨ ∃ e, e ∈ L ∧ x = e.1 ∧ inc' ∈ e.2.includes := by
  intro L
  induction L with
  | nil => intro rd inc' x; simp
  | cons e rest ih =>
    intro rd inc' x
    rw [List.foldl_cons, ih, mem_revFold]
    constructor
    · rintro ((h | ⟨h1, rfl⟩) | ⟨e', he', h1, h2⟩)
      · exact Or.inl h
      · exact Or.inr ⟨e, List.mem_cons_self _ _, rfl, h1⟩
      · exact Or.inr ⟨e', List.mem_cons_of_mem _ he', h1, h2⟩
    · rintro (h | ⟨e', he', h1, h2⟩)
      · exact Or.inl (Or.inl h)
      · rcases List.mem_cons.mp he' with rfl | he''
        · exact Or.inl (Or.inr ⟨h2, h1⟩)
        · exact Or.inr ⟨e', he'', h1, h2⟩

theorem revFold_nodup :
    ∀ (incs : List String) (rd : List (String × List String)) (r : String),
      (∀ e ∈ rd, e.2.Nodup) →
      ∀ e ∈ incs.foldl (fun rd' inc => revAdd rd' inc r) rd, e.2.Nodup := by
  intro incs
  induction incs with
  | nil => intro rd r h e he; exact h e he
  | cons i rest ih =>
    intro rd r h e he
    rw [List.foldl_cons] at he
    exact ih _ r (revAdd_deps_nodup h) e he

theorem loadFold_rev_nodup :
    ∀ (L : List (String × CachedFileEntry)) (rd : List (String × List String)),
      (∀ e ∈ rd, e.2.Nodup) →
      ∀ e ∈ L.foldl
        (fun rd e => e.2.includes.foldl (fun rd' inc => revAdd rd' inc e.1) rd)
        rd, e.2.Nodup := by
  intro L
  induction L with
  | nil => intro rd h e he; exact h e he
  | cons e0 rest ih =>
    intro rd h e he
    rw [List.foldl_cons] at he
    exact ih _ (revFold_nodup _ _ _ h) e he

theorem depsOf_nodup {rd : List (String × List String)}
    (h : ∀ e ∈ rd, e.2.Nodup) (inc : String) : (depsOf rd inc).Nodup := by
  unfold depsOf
  cases hm : mapGet rd inc with
  | none => simp
  | some s => simpa using h (inc, s) (mapGet_eq_some_mem hm)

theorem length_eq_of_mem_iff {l1 l2 : List String} (h1 : l1.Nodup)
    (h2 : l2.Nodup) (h : ∀ x, x ∈ l1 ↔ x ∈ l2) : l1.length = l2.length :=
  ((List.perm_ext_iff_of_nodup h1 h2).mpr h).length_eq

theorem getDependentCount_eq (g : DependencyGraph) (p : String) :
    getDependentCount g p = (depsOf g.reverseDeps (norm p)).length := by
  unfold getDependentCount depsOf
  cases hm : mapGet g.reverseDeps (norm p) <;> simp

theorem headerReach_mono {rd1 rd2 : List (String × List String)}
    (h : ∀ y z, z ∈ depsOf rd1 y → z ∈ depsOf rd2 y) {f t : String}
    (hr : HeaderReach rd1 f t) : HeaderReach rd2 f t := by
  induction hr with
  | refl => exact HeaderReach.refl _
  | step _ h2 h3 ih => exact HeaderReach.step ih h2 (h _ _ h3)

/-- C7: cache round trip preserves queries. For every graph satisfying the
build invariant (reverse-dependency edges mirror the per-file resolved
includes) and carrying no project scope, loading `toCache g` into a fresh
graph yields a graph that agrees with `g` on `getAffectedFiles` (as a set),
`getDependentCount`, and `totalFiles`, for every input. -/
theorem cache_roundtrip (g : DependencyGraph) (r b : String)
    (changed : List String) (p x : String)
    (hs : g.projectScope = none) (hwf : WellFormed g) :
    (x ∈ getAffectedFiles (loadCache (freshGraph r) (toCache g b)) changed ↔
      x ∈ getAffectedFiles g changed) ∧
    getDependentCount (loadCache (freshGraph r) (toCache g b)) p =
      getDependentCount g p ∧
    totalFiles (loadCache (freshGraph r) (toCache g b)) = totalFiles g := by
  have hrd_eq : (loadCache (freshGraph r) (toCache g b)).reverseDeps =
      (toCache g b).files.foldl
        (fun rd e => e.2.includes.foldl (fun rd' inc => revAdd rd' inc e.1) rd)
        [] := by
    show ((toCache g b).files.foldl (fun acc e => loadCacheEntry acc e.1 e.2)
      _).reverseDeps = _
    rw [loadFold_reverseDeps]
  have hscope' : (loadCache (freshGraph r) (toCache g b)).projectScope = none := by
    show ((toCache g b).files.foldl (fun acc e => loadCacheEntry acc e.1 e.2)
      _).projectScope = _
    rw [loadFold_projectScope]
    rfl
  have hrd_mem : ∀ inc' y,
      y ∈ depsOf (loadCache (freshGraph r) (toCache g b)).reverseDeps inc' ↔
        y ∈ depsOf g.reverseDeps inc' := by
    intro inc' y
    rw [hrd_eq, mem_loadFold_rev]
    constructor
    · rintro (h | ⟨e, he, rfl, h2⟩)
      · simp [depsOf, mapGet] at h
      · simp only [toCache] at he
        obtain ⟨f, hf, rfl⟩ := List.mem_map.mp he
        exact (hwf.rev_iff inc' _).mpr ⟨hf, by simpa using h2⟩
    · intro h
      have h' := (hwf.rev_iff inc' y).mp h
      right
      refine ⟨(y,
        { mtime := (mapGet g.fileMtimes y).getD 0
          includes := (mapGet g.fileIncludes y).getD [] }), ?_, rfl, ?_⟩
      · simp only [toCache]
        exact List.mem_map_of_mem _ h'.1
      · simpa using h'.2
  have hnodup' : ∀ inc,
      (depsOf (loadCache (freshGraph r) (toCache g b)).reverseDeps inc).Nodup := by
    intro inc
    apply depsOf_nodup
    rw [hrd_eq]
    exact loadFold_rev_nodup _ [] (by simp)
  have hall : (loadCache (freshGraph r) (toCache g b)).allFiles = g.allFiles := by
    have hkeys : (toCache g b).files.map Prod.fst = g.allFiles := by
      simp only [toCache, List.map_map]
      have hcomp : (Prod.fst ∘ fun relPath : String =>
          (relPath, ({ mtime := (mapGet g.fileMtimes relPath).getD 0
                       includes := (mapGet g.fileIncludes relPath).getD [] } :
            CachedFileEntry))) = id := rfl
      rw [hcomp, List.map_id]
    show ((toCache g b).files.foldl (fun acc e => loadCacheEntry acc e.1 e.2)
      _).allFiles = _
    rw [loadFold_allFiles]
    rw [foldl_setAdd_keys _ _ (by rw [hkeys]; exact hwf.allFiles_nodup)
      (by simp)]
    rw [hkeys]
    rfl
  refine ⟨?_, ?_, ?_⟩
  · rw [mem_getAffectedFiles_iff _ hscope' changed x,
      mem_getAffectedFiles_iff g hs changed x]
    constructor
    · rintro (h | ⟨f, hf, hfh, hr⟩)
      · exact Or.inl h
      · exact Or.inr ⟨f, hf, hfh,
          headerReach_mono (fun u v hv => (hrd_mem u v).mp hv) hr⟩
    · rintro (h | ⟨f, hf, hfh, hr⟩)
      · exact Or.inl h
      · exact Or.inr ⟨f, hf, hfh,
          headerReach_mono (fun u v hv => (hrd_mem u v).mpr hv) hr⟩
  · rw [getDependentCount_eq, getDependentCount_eq]
    exact length_eq_of_mem_iff (hnodup' _)
      (depsOf_nodup hwf.deps_nodup _) (fun y => hrd_mem _ y)
  · simp only [totalFiles, hscope', hs, hall]

/-- `exGraphCache` satisfies the build invariant. -/
theorem exGraphCache_wellFormed : WellFormed exGraphCache := by
  refine ⟨by decide, by decide, ?_⟩
  intro inc f
  show f ∈ depsOf [("b.h", ["a.cpp"])] inc ↔
    f ∈ ["a.cpp", "b.h"] ∧ inc ∈ (mapGet [("a.cpp", ["b.h"])] f).getD []
  by_cases h1 : ("b.h" : String) = inc
  · subst h1
    by_cases h2 : ("a.cpp" : String) = f
    · subst h2
      simp [depsOf, mapGet]
    · simp only [depsOf, mapGet, if_pos rfl, Option.getD_some]
      simp [Ne.symm h2, h2]
  · by_cases h2 : ("a.cpp" : String) = f
    · subst h2
      simp only [depsOf, mapGet, if_neg h1, Option.getD_none]
      simp [Ne.symm h1]
    · simp only [depsOf, mapGet, if_neg h1, if_neg h2, Option.getD_none]
      simp [Ne.symm h2]

/-- Witness for C7 on the built graph `exGraphCache` (`a.cpp` includes
`b.h`), querying the round-tripped graph at `changed = [b.h]`,
`p = b.h`, `x = a.cpp`. -/
theorem cache_roundtrip_witness :
    ("a.cpp" ∈ getAffectedFiles (loadCache (freshGraph "ws")
        (toCache exGraphCache "t")) ["b.h"] ↔
      "a.cpp" ∈ getAffectedFiles exGraphCache ["b.h"]) ∧
    getDependentCount (loadCache (freshGraph "ws") (toCache exGraphCache "t"))
        "b.h" = getDependentCount exGraphCache "b.h" ∧
    totalFiles (loadCache (freshGraph "ws") (toCache exGraphCache "t")) =
      totalFiles exGraphCache :=
  cache_roundtrip exGraphCache "ws" "t" ["b.h"] "b.h" "a.cpp" rfl
    exGraphCache_wellFormed

end RebuildRadar
